import Mathlib

/-!
# Verification of the folder-grouping state machine of `file_explorer`

This file embeds the core logic of `src/file_explorer.py` (class
`FileListWidget`): the widget's item list (headers and file rows), the YAML
sidecar serialization (`save_yaml`), deserialization and fallback synthesis
(`setFolderPath`), filesystem reconciliation (`handle_folder_change`), and the
structural edits (`add_header`, `delete_header`, `finish_editing_header`).

Modelling conventions:
* The `QListWidget` contents are a `List Item`; an `Item` is either a header
  row (with its label) or a file row (with its file name).
* A parsed YAML mapping is an ordered association list with distinct keys,
  mirroring a Python `dict` (insertion-ordered, unique keys).  A value that
  does not match the expected section schema is `none`; touching it raises,
  which aborts the load loop (the `try`/`except` in `setFolderPath`).
* Directory listings are `List String` in enumeration order.  Python builds
  `set(...)` from them; `setList` models a set as its duplicate-free
  enumeration (keeping first occurrences).  `os.path.exists` for a name is
  modelled as membership in the raw directory listing.
* Python's `str(section_index)` is `Nat.repr`, and the `sorted(...)` call on
  dict keys (key `(x != "default", x)`, comparing strings by code points) is
  a stable sort by the total preorder `sectionKeyLE`.
-/

namespace FileExplorer

/-- A row of the list widget: a section header or a file entry
(`ItemTypeRole` is `"header"` or `"file"` in the source). -/
inductive Item where
  | header (label : String)
  | file (name : String)
deriving DecidableEq

/-- One section of the sidecar document: `{"header": ..., "files": [...]}`. -/
structure SectionData where
  header : String
  files : List String
deriving DecidableEq

/-- A parsed `file_groups` mapping whose values all match the schema. -/
abbrev Dict := List (String × SectionData)

/-- A parsed `file_groups` mapping as loaded from YAML: a value that is not a
well-formed section is `none` (accessing it raises `KeyError`/`TypeError`). -/
abbrev RawDict := List (String × Option SectionData)

def isHeader : Item → Bool
  | .header _ => true
  | .file _ => false

/-- The file names of all file rows, in list order (used for
`widget_files` in `handle_folder_change`). -/
def widgetFiles (items : List Item) : List String :=
  items.filterMap fun it =>
    match it with
    | .file f => some f
    | .header _ => none

/-- A Python `set(...)` built from a list, modelled as the duplicate-free
enumeration of its elements (first occurrences kept). -/
def setList : List String → List String
  | [] => []
  | x :: r => x :: (setList r).filter (fun y => y != x)

/-- The filtered listing `[f for f in dir.entryList(QDir.Files) if f != "file_groups.yaml"]`. -/
def listFiles (raw : List String) : List String :=
  raw.filter (fun f => f != "file_groups.yaml")

/-- Python dict assignment `d[k] = v`: overwrite in place if the key is
present, else append. -/
def dictSet (d : Dict) (k : String) (v : SectionData) : Dict :=
  match d with
  | [] => [(k, v)]
  | (k', v') :: rest => if k' = k then (k, v) :: rest else (k', v') :: dictSet rest k v

/-- The loop of `save_yaml` (lines 333-379): state is the dict built so far,
`current_section`, `current_header`, `current_files`, `section_index`.
A header flushes the previous section only when `current_files` is nonempty. -/
def saveLoop : List Item → Dict → String → String → List String → Nat → Dict
  | [], fg, cs, ch, cf, _ =>
      if cf = [] then fg else dictSet fg cs ⟨ch, cf⟩
  | Item.header lbl :: rest, fg, cs, ch, cf, si =>
      saveLoop rest (if cf = [] then fg else dictSet fg cs ⟨ch, cf⟩)
        (Nat.repr (si + 1)) lbl [] (si + 1)
  | Item.file name :: rest, fg, cs, ch, cf, si =>
      saveLoop rest fg cs ch (cf ++ [name]) si

/-- Model of `FileListWidget.save_yaml`: serialize the current item list.  The dict is
seeded with `{"default": {"header": "", "files": []}}`. -/
def save_yaml (items : List Item) : Dict :=
  saveLoop items [("default", ⟨"", []⟩)] "default" "" [] 0

/-- Code-point comparison of character lists, as Python compares strings:
lexicographic, a strict prefix is smaller. -/
def charsLt : List Char → List Char → Bool
  | _, [] => false
  | [], _ :: _ => true
  | a :: as, b :: bs =>
      if a.toNat < b.toNat then true
      else if b.toNat < a.toNat then false
      else charsLt as bs

/-- Python's `a < b` on strings. -/
def strLt (a b : String) : Bool := charsLt a.data b.data

def sectionKeyLT (a b : String) : Prop :=
  (a = "default" ∧ b ≠ "default") ∨ (a ≠ "default" ∧ b ≠ "default" ∧ strLt a b = true)

instance : DecidableRel sectionKeyLT := fun a b => by
  unfold sectionKeyLT; infer_instance

def sectionKeyLE (a b : String) : Prop := ¬ sectionKeyLT b a

instance : DecidableRel sectionKeyLE := fun a b => by
  unfold sectionKeyLE; infer_instance

/-- The call `sorted(file_groups.keys(), key=lambda x: (x != "default", x))`. -/
def sortedKeys (fg : RawDict) : List String :=
  (fg.map Prod.fst).insertionSort sectionKeyLE

/-- Items contributed by one section at load: a header row unless the key is
`"default"`, then one file row per listed file that exists on disk. -/
def loadSection (k : String) (s : SectionData) (onDisk : String → Bool) : List Item :=
  (if k = "default" then [] else [Item.header s.header]) ++
    (s.files.filter onDisk).map Item.file

/-- The load loop over the sorted keys.  A section whose value does not match
the schema raises inside the `try`, which aborts the rest of the loop but
keeps the items already added (`except Exception: pass`). -/
def loadGo (fg : RawDict) (onDisk : String → Bool) : List String → List Item
  | [] => []
  | k :: ks =>
      match fg.lookup k with
      | some (some s) => loadSection k s onDisk ++ loadGo fg onDisk ks
      | _ => []

/-- The item list built from a parsed sidecar (lines 226-235). -/
def loadItems (fg : RawDict) (onDisk : String → Bool) : List Item :=
  loadGo fg onDisk (sortedKeys fg)

/-- Remove the first file row with the given name (the removal loop with
`break` in `handle_folder_change`). -/
def removeFirstFile : List Item → String → List Item
  | [], _ => []
  | Item.file n :: rest, name =>
      if n = name then rest else Item.file n :: removeFirstFile rest name
  | Item.header h :: rest, name => Item.header h :: removeFirstFile rest name

/-- The insertion point `insert_pos`: the number of items before the first header. -/
def firstHeaderPos (items : List Item) : Nat :=
  (items.takeWhile (fun it => !isHeader it)).length

/-- Model of `FileListWidget.handle_folder_change`: reconcile the item list with the
live directory listing `raw`.  Missing files are removed (first occurrence
each), new files are inserted consecutively at `insert_pos`. -/
def handle_folder_change (items : List Item) (raw : List String) : List Item :=
  let current := setList (listFiles raw)
  let widget := setList (widgetFiles items)
  let removed := widget.filter (fun f => !current.contains f)
  let afterRemove := removed.foldl removeFirstFile items
  let pos := firstHeaderPos afterRemove
  let added := current.filter (fun f => !widget.contains f)
  afterRemove.take pos ++ added.map Item.file ++ afterRemove.drop pos

/-- One past the index of the last header of the list, or `0` if it has no
header (the backwards scan for `target_pos` in `delete_header`). -/
def lastHeaderSucc : List Item → Nat
  | [] => 0
  | it :: rest =>
      let r := lastHeaderSucc rest
      if r ≠ 0 then r + 1 else if isHeader it then 1 else 0

/-- Model of `FileListWidget.delete_header` for the header at index `i`: take the run
of file rows after it, remove them and the header, then insert the run at
`target_pos` (one past the nearest preceding header, or `0`). -/
def delete_header (items : List Item) (i : Nat) : List Item :=
  match items[i]? with
  | some (Item.header _) =>
      let run := (items.drop (i + 1)).takeWhile (fun it => !isHeader it)
      let remaining := items.take i ++ (items.drop (i + 1)).dropWhile (fun it => !isHeader it)
      let target := lastHeaderSucc (items.take i)
      remaining.take target ++ run ++ remaining.drop target
  | _ => items

/-- Model of `FileListWidget.finish_editing_header`: the edited label, stripped, with
empty coerced to `"Unnamed Header"`, replaces the header's label. -/
def finish_editing_header (items : List Item) (i : Nat) (txt : String) : List Item :=
  match items[i]? with
  | some (Item.header _) =>
      items.set i (Item.header (if txt.trim = "" then "Unnamed Header" else txt.trim))
  | _ => items

/-- Model of `FileListWidget.add_header`: append a header row labelled "New Header". -/
def add_header (items : List Item) : List Item :=
  items ++ [Item.header "New Header"]

/-- The document synthesized by the fallback path of `setFolderPath`. -/
def fallbackDoc (files : List String) : Dict :=
  [("default", ⟨"", files⟩)]

/-- Result of `setFolderPath`: the final item list, the sidecar contents
written by the fallback path (if it ran), and the sidecar contents written by
the `save_yaml` at the end of the initial `handle_folder_change`. -/
structure LoadOutcome where
  items : List Item
  fallbackWrite : Option Dict
  finalWrite : Dict
deriving DecidableEq

/-- Model of `FileListWidget.setFolderPath`: load the sidecar (`none` models absent /
unreadable / not-a-mapping), fall back to a synthesized default document when
the loaded list is empty, then reconcile once against the live listing. -/
def setFolderPath (sidecar : Option RawDict) (raw : List String) : LoadOutcome :=
  let disk := listFiles raw
  let loaded :=
    match sidecar with
    | some fg => loadItems fg (fun f => raw.contains f)
    | none => []
  let items0 := if loaded = [] then disk.map Item.file else loaded
  let fb : Option Dict := if loaded = [] then some (fallbackDoc disk) else none
  let items1 := handle_folder_change items0 raw
  ⟨items1, fb, save_yaml items1⟩

/-- The user-driven and filesystem-driven operations on a loaded document. -/
inductive Op where
  | reconcile (raw : List String)
  | addHeader
  | deleteHeader (i : Nat)
  | renameHeader (i : Nat) (txt : String)
  | save

def applyOp (items : List Item) : Op → List Item
  | .reconcile raw => handle_folder_change items raw
  | .addHeader => add_header items
  | .deleteHeader i => delete_header items i
  | .renameHeader i txt => finish_editing_header items i txt
  | .save => items

/-! ## Abstract view of a document as default files plus labelled sections -/

/-- The items of a list of non-default sections: each contributes its header
row followed by its file rows. -/
def secsItems : List (String × List String) → List Item
  | [] => []
  | (h, fs) :: rest => Item.header h :: (fs.map Item.file ++ secsItems rest)

/-- A document given by its default-section files and its non-default
sections in display order. -/
def buildDoc (d : List String) (secs : List (String × List String)) : List Item :=
  d.map Item.file ++ secsItems secs

/-- All file names of such a document, in display order. -/
def docFiles (d : List String) (secs : List (String × List String)) : List String :=
  d ++ secs.flatMap Prod.snd

/-- Non-default sections keyed `Nat.repr n`, `Nat.repr (n+1)`, …. -/
def numberSecs : Nat → List (String × List String) → Dict
  | _, [] => []
  | n, (h, fs) :: rest => (Nat.repr n, ⟨h, fs⟩) :: numberSecs (n + 1) rest

/-- The widget index of the `k`-th header row of `buildDoc d secs`. -/
def headerPos (d : List String) (secs : List (String × List String)) (k : Nat) : Nat :=
  d.length + ((secs.take k).map (fun s => 1 + s.2.length)).sum

/-- Total number of items contributed by a list of sections. -/
def sumLen (secs : List (String × List String)) : Nat :=
  (secs.map (fun s => 1 + s.2.length)).sum

/-- Delete section `k` (for `1 ≤ k`), re-homing its files to the start of
section `k-1`'s file list. -/
def rehomeDelete (secs : List (String × List String)) (k : Nat) : List (String × List String) :=
  secs.take (k - 1) ++
    [((secs.getD (k - 1) ("", [])).1,
      (secs.getD k ("", [])).2 ++ (secs.getD (k - 1) ("", [])).2)] ++
    secs.drop (k + 1)

/-- Embed a schema-valid dict as a parsed YAML value. -/
def asRaw (fg : Dict) : RawDict :=
  fg.map fun kv => (kv.1, some kv.2)

/-- The file names a raw dict entry contributes. -/
def entryFiles (kv : String × Option SectionData) : List String :=
  match kv.2 with
  | some s => s.files
  | none => []

/-- The files a key contributes at load time (empty when the key is absent
or its section malformed). -/
def lookupFiles (fg : RawDict) (k : String) : List String :=
  match fg.lookup k with
  | some (some s) => s.files
  | _ => []

/-- Keep file rows whose name satisfies `p`; keep every header row. -/
def keepFile (p : String → Bool) : Item → Bool
  | .header _ => true
  | .file f => p f

def digitsOf (n : Nat) : List Char :=
  if _ : n < 10 then [Nat.digitChar n]
  else digitsOf (n / 10) ++ [Nat.digitChar (n % 10)]
termination_by n
decreasing_by exact Nat.div_lt_self (by omega) (by omega)

/-! ## Lemmas: string order and decimal keys -/

theorem char_toNat_inj {a b : Char} (h : a.toNat = b.toNat) : a = b := by
  rw [← Char.ofNat_toNat a, ← Char.ofNat_toNat b, h]

theorem charsLt_asymm : ∀ {x y : List Char}, charsLt x y = true → charsLt y x = false := by
  intro x
  induction x with
  | nil => intro y _; cases y <;> rfl
  | cons a as ih =>
    intro y h
    cases y with
    | nil => simp [charsLt] at h
    | cons b bs =>
      simp only [charsLt] at h ⊢
      split_ifs at h ⊢ <;> first | rfl | omega | exact ih h | simp_all

theorem charsLt_eq_of_not : ∀ {x y : List Char},
    charsLt x y = false → charsLt y x = false → x = y := by
  intro x
  induction x with
  | nil =>
    intro y h1 _
    cases y with
    | nil => rfl
    | cons b bs => simp [charsLt] at h1
  | cons a as ih =>
    intro y h1 h2
    cases y with
    | nil => simp [charsLt] at h2
    | cons b bs =>
      simp only [charsLt] at h1 h2
      split_ifs at h1 h2 <;>
        first
        | omega
        | (have hc : a = b := char_toNat_inj (by omega)
           rw [hc, ih h1 h2])
        | simp_all

theorem charsLt_trans : ∀ {x y z : List Char},
    charsLt x y = true → charsLt y z = true → charsLt x z = true := by
  intro x
  induction x with
  | nil =>
    intro y z h1 h2
    cases y with
    | nil => simp [charsLt] at h1
    | cons b bs =>
      cases z with
      | nil => simp [charsLt] at h2
      | cons c cs => rfl
  | cons a as ih =>
    intro y z h1 h2
    cases y with
    | nil => simp [charsLt] at h1
    | cons b bs =>
      cases z with
      | nil => simp [charsLt] at h2
      | cons c cs =>
        simp only [charsLt] at h1 h2 ⊢
        split_ifs at h1 h2 ⊢ <;> first | rfl | omega | exact ih h1 h2 | simp_all

theorem strLt_asymm {a b : String} (h : strLt a b = true) : strLt b a = false :=
  charsLt_asymm h

theorem strLt_eq_of_not {a b : String} (h1 : strLt a b = false) (h2 : strLt b a = false) :
    a = b := by
  exact congrArg String.mk (charsLt_eq_of_not h1 h2)

theorem strLt_trans {a b c : String} (h1 : strLt a b = true) (h2 : strLt b c = true) :
    strLt a c = true :=
  charsLt_trans h1 h2

/-! ## Decimal digits -/

theorem digitsOf_lt {n : Nat} (h : n < 10) : digitsOf n = [Nat.digitChar n] := by
  unfold digitsOf; simp [h]

theorem digitsOf_ge {n : Nat} (h : ¬ n < 10) :
    digitsOf n = digitsOf (n / 10) ++ [Nat.digitChar (n % 10)] := by
  conv_lhs => unfold digitsOf
  simp [h]

theorem digitsOf_ne_nil (n : Nat) : digitsOf n ≠ [] := by
  by_cases h : n < 10
  · rw [digitsOf_lt h]; simp
  · rw [digitsOf_ge h]; simp

theorem toDigitsCore_eq (fuel : Nat) : ∀ (n : Nat) (ds : List Char), n < fuel →
    Nat.toDigitsCore 10 fuel n ds = digitsOf n ++ ds := by
  induction fuel with
  | zero => intro n ds h; omega
  | succ f ih =>
    intro n ds h
    by_cases h10 : n < 10
    · have hz : n / 10 = 0 := by omega
      have hm : n % 10 = n := by omega
      simp [Nat.toDigitsCore, hz, hm, digitsOf_lt h10]
    · have hz : ¬ n / 10 = 0 := by omega
      have hlt : n / 10 < f := by omega
      simp only [Nat.toDigitsCore, hz, if_false]
      rw [ih _ _ hlt, digitsOf_ge h10]
      simp

theorem repr_eq_digitsOf (n : Nat) : Nat.repr n = ⟨digitsOf n⟩ := by
  show (Nat.toDigits 10 n).asString = _
  rw [Nat.toDigits, toDigitsCore_eq (n + 1) n [] (by omega)]
  simp [List.asString]

theorem digitChar_inj {a b : Nat} (ha : a < 10) (hb : b < 10)
    (h : Nat.digitChar a = Nat.digitChar b) : a = b := by
  interval_cases a <;> interval_cases b <;> revert h <;> decide

theorem digitsOf_mem_digit (n : Nat) : ∀ c ∈ digitsOf n, ∃ k, k < 10 ∧ c = Nat.digitChar k := by
  induction n using Nat.strong_induction_on with
  | _ n ih =>
    by_cases h : n < 10
    · rw [digitsOf_lt h]
      intro c hc
      simp at hc
      exact ⟨n, h, hc⟩
    · rw [digitsOf_ge h]
      intro c hc
      rcases List.mem_append.mp hc with hc | hc
      · exact ih (n / 10) (Nat.div_lt_self (by omega) (by omega)) c hc
      · simp at hc
        exact ⟨n % 10, by omega, hc⟩

theorem digitsOf_inj : ∀ m n : Nat, digitsOf m = digitsOf n → m = n := by
  intro m
  induction m using Nat.strong_induction_on with
  | _ m ih =>
    intro n h
    by_cases hm : m < 10 <;> by_cases hn : n < 10
    · rw [digitsOf_lt hm, digitsOf_lt hn] at h
      simp at h
      exact digitChar_inj hm hn h
    · rw [digitsOf_lt hm, digitsOf_ge hn] at h
      have hlen := congrArg List.length h
      have hne : 1 ≤ (digitsOf (n / 10)).length :=
        List.length_pos.mpr (digitsOf_ne_nil (n / 10))
      simp only [List.length_append, List.length_singleton, List.length_cons,
        List.length_nil] at hlen
      omega
    · rw [digitsOf_ge hm, digitsOf_lt hn] at h
      have hlen := congrArg List.length h
      have hne : 1 ≤ (digitsOf (m / 10)).length :=
        List.length_pos.mpr (digitsOf_ne_nil (m / 10))
      simp only [List.length_append, List.length_singleton, List.length_cons,
        List.length_nil] at hlen
      omega
    · rw [digitsOf_ge hm, digitsOf_ge hn] at h
      have hrev := congrArg List.reverse h
      simp at hrev
      have h1 : m % 10 = n % 10 := digitChar_inj (by omega) (by omega) hrev.1
      have h2 : m / 10 = n / 10 :=
        ih (m / 10) (Nat.div_lt_self (by omega) (by omega)) (n / 10) hrev.2
      omega

theorem repr_inj {m n : Nat} (h : Nat.repr m = Nat.repr n) : m = n := by
  rw [repr_eq_digitsOf, repr_eq_digitsOf] at h
  exact digitsOf_inj _ _ (congrArg String.data h)

theorem repr_ne_default (n : Nat) : Nat.repr n ≠ "default" := by
  rw [repr_eq_digitsOf]
  intro h
  have hd : digitsOf n = "default".data := congrArg String.data h
  have hmem : 'd' ∈ digitsOf n := by rw [hd]; decide
  obtain ⟨k, hk, hc⟩ := digitsOf_mem_digit n _ hmem
  revert hc
  interval_cases k <;> decide

/-! ## The key order is a total preorder -/

theorem sectionKeyLE_default (x : String) : sectionKeyLE "default" x := by
  rintro (⟨_, hne⟩ | ⟨_, hne, _⟩) <;> exact hne rfl

theorem sectionKeyLT_asymm {a b : String} (h : sectionKeyLT a b) : ¬ sectionKeyLT b a := by
  rcases h with ⟨had, hbd⟩ | ⟨had, hbd, hab⟩ <;>
    rintro (⟨hbd', had'⟩ | ⟨hbd', had', hba⟩)
  · exact hbd hbd'
  · exact had' had
  · exact hbd hbd'
  · rw [strLt_asymm hab] at hba; exact Bool.false_ne_true hba

instance : IsTotal String sectionKeyLE :=
  ⟨fun a b => by
    by_cases h : sectionKeyLT b a
    · exact Or.inr (sectionKeyLT_asymm h)
    · exact Or.inl h⟩

instance : IsTrans String sectionKeyLE :=
  ⟨fun a b c hab hbc => by
    rintro (⟨hcd, had⟩ | ⟨hcd, had, hca⟩)
    · by_cases hbd : b = "default"
      · exact hab (Or.inl ⟨hbd, had⟩)
      · exact hbc (Or.inl ⟨hcd, hbd⟩)
    · by_cases hbd : b = "default"
      · exact hab (Or.inl ⟨hbd, had⟩)
      · have h1 : strLt b a = false :=
          Bool.eq_false_iff.mpr fun hlt => hab (Or.inr ⟨hbd, had, hlt⟩)
        have h2 : strLt c b = false :=
          Bool.eq_false_iff.mpr fun hlt => hbc (Or.inr ⟨hcd, hbd, hlt⟩)
        by_cases hba : strLt a b = true
        · have hcb : strLt c b = true := strLt_trans hca hba
          rw [hcb] at h2
          exact Bool.noConfusion h2
        · have hae : a = b := strLt_eq_of_not (Bool.eq_false_iff.mpr hba) h1
          rw [hae] at hca
          rw [hca] at h2
          exact Bool.noConfusion h2⟩

theorem repr_keyLE_of_le9 {i j : Nat} (hij : i ≤ j) (hj : j ≤ 9) :
    sectionKeyLE (Nat.repr i) (Nat.repr j) := by
  have hi : i ≤ 9 := le_trans hij hj
  interval_cases i <;> interval_cases j <;> first | decide | omega

/-! ## Structure of documents -/

theorem widgetFiles_append (a b : List Item) :
    widgetFiles (a ++ b) = widgetFiles a ++ widgetFiles b := by
  simp [widgetFiles]

theorem widgetFiles_mapFile (fs : List String) : widgetFiles (fs.map Item.file) = fs := by
  induction fs with
  | nil => rfl
  | cons f fs ih => simpa [widgetFiles, List.filterMap_cons] using ih

theorem widgetFiles_cons_header (h : String) (rest : List Item) :
    widgetFiles (Item.header h :: rest) = widgetFiles rest := by
  simp [widgetFiles, List.filterMap_cons]

theorem widgetFiles_cons_file (f : String) (rest : List Item) :
    widgetFiles (Item.file f :: rest) = f :: widgetFiles rest := by
  simp [widgetFiles, List.filterMap_cons]

theorem widgetFiles_secsItems (secs : List (String × List String)) :
    widgetFiles (secsItems secs) = secs.flatMap Prod.snd := by
  induction secs with
  | nil => rfl
  | cons s rest ih =>
    cases s
    simp [secsItems, widgetFiles_cons_header, widgetFiles_append, widgetFiles_mapFile, ih]

theorem widgetFiles_buildDoc (d : List String) (secs : List (String × List String)) :
    widgetFiles (buildDoc d secs) = docFiles d secs := by
  simp [buildDoc, docFiles, widgetFiles_append, widgetFiles_mapFile, widgetFiles_secsItems]

theorem file_mem_widgetFiles {f : String} : ∀ {items : List Item},
    f ∈ widgetFiles items ↔ Item.file f ∈ items := by
  intro items
  induction items with
  | nil => simp [widgetFiles]
  | cons it rest ih =>
    cases it with
    | header h => simp [widgetFiles_cons_header, ih]
    | file n => simp [widgetFiles_cons_file, ih]

/-! ## `setList` (Python sets) -/

theorem mem_setList {x : String} : ∀ {l : List String}, x ∈ setList l ↔ x ∈ l := by
  intro l
  induction l with
  | nil => simp [setList]
  | cons a r ih =>
    by_cases hxa : x = a
    · subst hxa; simp [setList]
    · simp [setList, List.mem_filter, bne_iff_ne, hxa, ih]

theorem setList_nodup : ∀ (l : List String), (setList l).Nodup := by
  intro l
  induction l with
  | nil => simp [setList]
  | cons a r ih =>
    simp only [setList, List.nodup_cons]
    refine ⟨fun hmem => ?_, ih.filter _⟩
    have := (List.mem_filter.mp hmem).2
    simp at this

theorem setList_eq_self : ∀ {l : List String}, l.Nodup → setList l = l := by
  intro l h
  induction l with
  | nil => rfl
  | cons a r ih =>
    simp only [setList]
    rw [ih (List.Nodup.of_cons h)]
    congr 1
    apply List.filter_eq_self.mpr
    intro b hb
    simp only [bne_iff_ne, ne_eq, decide_eq_true_eq]
    rintro rfl
    exact (List.nodup_cons.mp h).1 hb

theorem contains_true_iff {l : List String} {x : String} : l.contains x = true ↔ x ∈ l :=
  List.elem_iff

/-! ## Removal -/

theorem removeFirstFile_sublist : ∀ (items : List Item) (name : String),
    List.Sublist (removeFirstFile items name) items := by
  intro items name
  induction items with
  | nil => simp [removeFirstFile]
  | cons it rest ih =>
    cases it with
    | header h =>
      simp only [removeFirstFile]
      exact ih.cons₂ _
    | file n =>
      by_cases hn : n = name
      · simp [removeFirstFile, hn]
      · simp only [removeFirstFile, hn, if_false]
        exact ih.cons₂ _

theorem widgetFiles_sublist {a b : List Item} (h : List.Sublist a b) :
    List.Sublist (widgetFiles a) (widgetFiles b) :=
  h.filterMap _

theorem removeFirstFile_eq_filter {name : String} : ∀ {items : List Item},
    (widgetFiles items).Nodup →
    removeFirstFile items name = items.filter (fun it => it != Item.file name) := by
  intro items hnd
  induction items with
  | nil => rfl
  | cons it rest ih =>
    cases it with
    | header h =>
      rw [widgetFiles_cons_header] at hnd
      simp [removeFirstFile, ih hnd]
    | file n =>
      rw [widgetFiles_cons_file] at hnd
      by_cases hn : n = name
      · subst hn
        have hnotin : n ∉ widgetFiles rest := (List.nodup_cons.mp hnd).1
        simp only [removeFirstFile, if_pos rfl, List.filter_cons]
        have : (Item.file n != Item.file n) = false := by simp
        rw [this]
        simp only [Bool.false_eq_true, if_false]
        symm
        apply List.filter_eq_self.mpr
        intro it hit
        cases it with
        | header h => simp
        | file f =>
          simp only [bne_iff_ne, ne_eq, Item.file.injEq, decide_eq_true_eq]
          rintro rfl
          exact hnotin (file_mem_widgetFiles.mpr hit)
      · have : (Item.file n != Item.file name) = true := by simp [hn]
        simp [removeFirstFile, hn, List.filter_cons, this, ih (List.Nodup.of_cons hnd)]

theorem foldl_removeFirstFile : ∀ (names : List String) (items : List Item),
    (widgetFiles items).Nodup →
    names.foldl removeFirstFile items =
      items.filter (keepFile (fun f => !names.contains f)) := by
  intro names
  induction names with
  | nil =>
    intro items _
    simp only [List.foldl_nil]
    symm
    apply List.filter_eq_self.mpr
    intro it _
    cases it <;> simp [keepFile]
  | cons n ns ih =>
    intro items hnd
    have hsub : List.Sublist (widgetFiles (removeFirstFile items n)) (widgetFiles items) :=
      widgetFiles_sublist (removeFirstFile_sublist items n)
    rw [List.foldl_cons, ih (removeFirstFile items n) (hnd.sublist hsub),
      removeFirstFile_eq_filter hnd, List.filter_filter]
    apply List.filter_congr
    intro it _
    cases it with
    | header h => simp [keepFile]
    | file f =>
      simp only [keepFile, List.contains_cons, Bool.not_or]
      by_cases hfn : f = n
      · subst hfn; simp
      · have h1 : (Item.file f != Item.file n) = true := by simp [hfn]
        have h2 : (f == n) = false := by simp [hfn]
        rw [h1, h2]
        simp [Bool.and_comm]

/-! ## Filtering a document -/

theorem filter_mapFile (p : String → Bool) (fs : List String) :
    (fs.map Item.file).filter (keepFile p) = (fs.filter p).map Item.file := by
  rw [List.filter_map]
  rfl

theorem filter_keepFile_secsItems (p : String → Bool) :
    ∀ secs : List (String × List String),
    (secsItems secs).filter (keepFile p) =
      secsItems (secs.map fun s => (s.1, s.2.filter p)) := by
  intro secs
  induction secs with
  | nil => rfl
  | cons s rest ih =>
    cases s with
    | mk h fs =>
      simp only [secsItems, List.map_cons, List.filter_cons, List.filter_append]
      have h1 : keepFile p (Item.header h) = true := rfl
      rw [h1]
      simp only [if_true, ih, filter_mapFile]

theorem filter_keepFile_buildDoc (p : String → Bool) (d : List String)
    (secs : List (String × List String)) :
    (buildDoc d secs).filter (keepFile p) =
      buildDoc (d.filter p) (secs.map fun s => (s.1, s.2.filter p)) := by
  simp only [buildDoc, List.filter_append, filter_mapFile, filter_keepFile_secsItems]

theorem contains_false_iff {l : List String} {x : String} : l.contains x = false ↔ x ∉ l := by
  rw [Bool.eq_false_iff, Ne, contains_true_iff]

/-! ## The insertion point -/

theorem takeWhile_notHeader_mapFile_append (d : List String) (X : List Item) :
    (d.map Item.file ++ X).takeWhile (fun it => !isHeader it) =
      d.map Item.file ++ X.takeWhile (fun it => !isHeader it) := by
  induction d with
  | nil => rfl
  | cons f d ih => simp [List.takeWhile_cons, isHeader, ih]

theorem takeWhile_notHeader_secsItems (secs : List (String × List String)) :
    (secsItems secs).takeWhile (fun it => !isHeader it) = [] := by
  cases secs with
  | nil => rfl
  | cons s rest => cases s; simp [secsItems, List.takeWhile_cons, isHeader]

theorem firstHeaderPos_buildDoc (d : List String) (secs : List (String × List String)) :
    firstHeaderPos (buildDoc d secs) = d.length := by
  simp [firstHeaderPos, buildDoc, takeWhile_notHeader_mapFile_append,
    takeWhile_notHeader_secsItems]

theorem take_buildDoc (d : List String) (secs : List (String × List String)) :
    (buildDoc d secs).take d.length = d.map Item.file :=
  List.take_left' (by simp)

theorem drop_buildDoc (d : List String) (secs : List (String × List String)) :
    (buildDoc d secs).drop d.length = secsItems secs :=
  List.drop_left' (by simp)

/-! ## Characterization of reconciliation -/

/-- What one `handle_folder_change` does to a document: every file row whose
name is missing from disk is dropped from its section, and the names on disk
that were nowhere in the document are appended, in enumeration order, to the
end of the default section's files. -/
theorem handle_folder_change_buildDoc (d : List String)
    (secs : List (String × List String)) (raw : List String)
    (hnd : (docFiles d secs).Nodup) :
    handle_folder_change (buildDoc d secs) raw =
      buildDoc
        (d.filter (fun f => (setList (listFiles raw)).contains f) ++
          (setList (listFiles raw)).filter (fun f => !(docFiles d secs).contains f))
        (secs.map fun s => (s.1, s.2.filter (fun f => (setList (listFiles raw)).contains f))) := by
  have hwidget : setList (widgetFiles (buildDoc d secs)) = docFiles d secs := by
    rw [widgetFiles_buildDoc, setList_eq_self hnd]
  simp only [handle_folder_change, hwidget]
  rw [foldl_removeFirstFile _ _ (by rw [widgetFiles_buildDoc]; exact hnd)]
  have hpred : (buildDoc d secs).filter
      (keepFile (fun f =>
        !((docFiles d secs).filter (fun g => !(setList (listFiles raw)).contains g)).contains f)) =
      (buildDoc d secs).filter (keepFile (fun f => (setList (listFiles raw)).contains f)) := by
    apply List.filter_congr
    intro it hit
    cases it with
    | header h => simp [keepFile]
    | file f =>
      have hf : f ∈ docFiles d secs := by
        rw [← widgetFiles_buildDoc]
        exact file_mem_widgetFiles.mpr hit
      simp only [keepFile]
      by_cases hc : (setList (listFiles raw)).contains f = true
      · have hnot : f ∉ (docFiles d secs).filter
            (fun g => !(setList (listFiles raw)).contains g) := by
          intro hmem
          have := (List.mem_filter.mp hmem).2
          rw [hc] at this
          exact Bool.noConfusion this
        rw [hc, contains_false_iff.mpr hnot]
        rfl
      · have hc' : (setList (listFiles raw)).contains f = false := Bool.eq_false_iff.mpr hc
        have hmem : f ∈ (docFiles d secs).filter
            (fun g => !(setList (listFiles raw)).contains g) :=
          List.mem_filter.mpr ⟨hf, by rw [hc']; rfl⟩
        rw [hc', contains_true_iff.mpr hmem]
        rfl
  rw [hpred, filter_keepFile_buildDoc, firstHeaderPos_buildDoc, take_buildDoc, drop_buildDoc]
  simp [buildDoc, List.append_assoc]

/-- A reconciliation in which nothing was removed and nothing added leaves the
item list unchanged. -/
theorem handle_folder_change_noop (items : List Item) (raw : List String)
    (h1 : ∀ f ∈ widgetFiles items, f ∈ listFiles raw)
    (h2 : ∀ f ∈ listFiles raw, f ∈ widgetFiles items) :
    handle_folder_change items raw = items := by
  simp only [handle_folder_change]
  have hrem : (setList (widgetFiles items)).filter
      (fun f => !(setList (listFiles raw)).contains f) = [] := by
    rw [List.filter_eq_nil_iff]
    intro f hf
    have hmem : f ∈ setList (listFiles raw) := mem_setList.mpr (h1 f (mem_setList.mp hf))
    rw [contains_true_iff.mpr hmem]
    simp
  have hadd : (setList (listFiles raw)).filter
      (fun f => !(setList (widgetFiles items)).contains f) = [] := by
    rw [List.filter_eq_nil_iff]
    intro f hf
    have hmem : f ∈ setList (widgetFiles items) := mem_setList.mpr (h2 f (mem_setList.mp hf))
    rw [contains_true_iff.mpr hmem]
    simp
  rw [hrem, hadd]
  simp [List.take_append_drop]

/-! ## Characterization of `save_yaml` -/

theorem saveLoop_files (ds : List String) :
    ∀ (rest : List Item) (fg : Dict) (cs ch : String) (cf : List String) (si : Nat),
    saveLoop (ds.map Item.file ++ rest) fg cs ch cf si =
      saveLoop rest fg cs ch (cf ++ ds) si := by
  induction ds with
  | nil => intro rest fg cs ch cf si; simp
  | cons f ds ih =>
    intro rest fg cs ch cf si
    simp only [List.map_cons, List.cons_append, saveLoop, List.append_eq]
    rw [ih]
    simp

theorem dictSet_append {fg : Dict} {k : String} (v : SectionData)
    (h : ∀ kv ∈ fg, kv.1 ≠ k) : dictSet fg k v = fg ++ [(k, v)] := by
  induction fg with
  | nil => rfl
  | cons kv rest ih =>
    cases kv with
    | mk k' v' =>
      have hne : k' ≠ k := h (k', v') (by simp)
      simp only [dictSet, if_neg hne, List.cons_append, List.cons.injEq, true_and]
      exact ih fun kv hkv => h kv (by simp [hkv])

theorem saveLoop_sections : ∀ (secs : List (String × List String)) (fg : Dict)
    (ch : String) (cf : List String) (si : Nat),
    cf ≠ [] →
    (∀ s ∈ secs, s.2 ≠ []) →
    (∀ kv ∈ fg, ∀ j, si ≤ j → kv.1 ≠ Nat.repr j) →
    saveLoop (secsItems secs) fg (Nat.repr si) ch cf si =
      fg ++ (Nat.repr si, ⟨ch, cf⟩) :: numberSecs (si + 1) secs := by
  intro secs
  induction secs with
  | nil =>
    intro fg ch cf si hcf _ hfresh
    simp only [secsItems, saveLoop, if_neg hcf]
    rw [dictSet_append _ fun kv hkv => hfresh kv hkv si le_rfl]
    rfl
  | cons s rest ih =>
    intro fg ch cf si hcf hne hfresh
    cases s with
    | mk h fs =>
      simp only [secsItems, saveLoop, if_neg hcf, List.append_eq]
      rw [dictSet_append _ fun kv hkv => hfresh kv hkv si le_rfl]
      rw [saveLoop_files, List.nil_append]
      have hfs : fs ≠ [] := hne (h, fs) (by simp)
      have hfresh' : ∀ kv ∈ fg ++ [(Nat.repr si, (⟨ch, cf⟩ : SectionData))],
          ∀ j, si + 1 ≤ j → kv.1 ≠ Nat.repr j := by
        intro kv hkv j hj
        rcases List.mem_append.mp hkv with hkv | hkv
        · exact hfresh kv hkv j (by omega)
        · simp at hkv
          subst hkv
          intro heq
          have := repr_inj heq
          omega
      have hih := ih (fg ++ [(Nat.repr si, ⟨ch, cf⟩)]) h fs (si + 1) hfs
        (fun t ht => hne t (by simp [ht])) hfresh'
      rw [hih]
      simp [numberSecs]

theorem save_yaml_buildDoc (d : List String) (secs : List (String × List String))
    (hne : ∀ s ∈ secs, s.2 ≠ []) :
    save_yaml (buildDoc d secs) = ("default", ⟨"", d⟩) :: numberSecs 1 secs := by
  unfold save_yaml buildDoc
  rw [saveLoop_files]
  cases secs with
  | nil =>
    cases d with
    | nil => rfl
    | cons f d' => simp [secsItems, saveLoop, dictSet, numberSecs]
  | cons s rest =>
    cases s with
    | mk h fs =>
      simp only [secsItems, saveLoop, List.nil_append, List.append_eq]
      have hflush : (if d = [] then [("default", (⟨"", []⟩ : SectionData))]
          else dictSet [("default", ⟨"", []⟩)] "default" ⟨"", d⟩) =
          [("default", (⟨"", d⟩ : SectionData))] := by
        cases d <;> simp [dictSet]
      rw [hflush, saveLoop_files, List.nil_append]
      have hfs : fs ≠ [] := hne (h, fs) (by simp)
      have hfresh : ∀ kv ∈ [("default", (⟨"", d⟩ : SectionData))],
          ∀ j, 1 ≤ j → kv.1 ≠ Nat.repr j := by
        intro kv hkv j _
        simp at hkv
        subst hkv
        exact fun heq => repr_ne_default j heq.symm
      have := saveLoop_sections rest [("default", ⟨"", d⟩)] h fs 1 hfs
        (fun t ht => hne t (by simp [ht])) hfresh
      simp only [Nat.zero_add] at this ⊢
      rw [this]
      rfl

theorem numberSecs_keys : ∀ (secs : List (String × List String)) (n : Nat),
    (numberSecs n secs).map Prod.fst = (List.range' n secs.length).map Nat.repr := by
  intro secs
  induction secs with
  | nil => intro n; rfl
  | cons s rest ih =>
    intro n
    cases s
    simp [numberSecs, List.range'_succ, ih]

/-! ## Characterization of load -/

theorem pairwise_lt_range' : ∀ (n s : Nat), (List.range' s n).Pairwise (· < ·) := by
  intro n
  induction n with
  | zero => intro s; simp
  | succ m ih =>
    intro s
    rw [List.range'_succ]
    refine List.Pairwise.cons ?_ (ih (s + 1))
    intro b hb
    rw [List.mem_range'] at hb
    obtain ⟨i, _, rfl⟩ := hb
    omega

theorem asRaw_keys (fg : Dict) : (asRaw fg).map Prod.fst = fg.map Prod.fst := by
  simp [asRaw]

theorem lookup_asRaw (fg : Dict) (k : String) :
    (asRaw fg).lookup k = (fg.lookup k).map some := by
  induction fg with
  | nil => rfl
  | cons kv rest ih =>
    cases kv with
    | mk k' v =>
      simp only [asRaw, List.map_cons, List.lookup_cons]
      cases h : (k == k') with
      | false => simpa [asRaw] using ih
      | true => simp

theorem lookup_numberSecs : ∀ (secs : List (String × List String)) (n i : Nat),
    i < secs.length →
    (numberSecs n secs).lookup (Nat.repr (n + i)) =
      some ⟨(secs.getD i ("", [])).1, (secs.getD i ("", [])).2⟩ := by
  intro secs
  induction secs with
  | nil => intro n i h; simp at h
  | cons s rest ih =>
    intro n i h
    cases s with
    | mk hh fs =>
      cases i with
      | zero =>
        simp [numberSecs, List.lookup_cons, List.getD]
      | succ j =>
        have hne : (Nat.repr (n + (j + 1)) == Nat.repr n) = false := by
          rw [beq_eq_false_iff_ne]
          intro heq
          have := repr_inj heq
          omega
        simp only [numberSecs, List.lookup_cons, hne]
        have hlen : j < rest.length := by simpa using h
        have := ih (n + 1) j hlen
        rw [show n + 1 + j = n + (j + 1) by omega] at this
        simpa [List.getD] using this

theorem loadGo_secs (full : RawDict) (onDisk : String → Bool) :
    ∀ (secs : List (String × List String)) (n : Nat),
    (∀ i, i < secs.length →
      full.lookup (Nat.repr (n + i)) =
        some (some ⟨(secs.getD i ("", [])).1, (secs.getD i ("", [])).2⟩)) →
    loadGo full onDisk ((List.range' n secs.length).map Nat.repr) =
      secsItems (secs.map fun s => (s.1, s.2.filter onDisk)) := by
  intro secs
  induction secs with
  | nil => intro n _; rfl
  | cons s rest ih =>
    intro n hlook
    cases s with
    | mk h fs =>
      simp only [List.length_cons, List.range'_succ, List.map_cons]
      have h0 := hlook 0 (by simp)
      simp only [Nat.add_zero, List.getD] at h0
      simp only [loadGo, h0]
      have hrest : loadGo full onDisk ((List.range' (n + 1) rest.length).map Nat.repr) =
          secsItems (rest.map fun s => (s.1, s.2.filter onDisk)) := by
        apply ih
        intro i hi
        have := hlook (i + 1) (by simpa using hi)
        rw [show n + (i + 1) = n + 1 + i by omega] at this
        simpa [List.getD] using this
      rw [hrest]
      simp [loadSection, secsItems, if_neg (repr_ne_default n), List.getD]

theorem loadItems_saved (d : List String) (secs : List (String × List String))
    (onDisk : String → Bool) (hlen : secs.length ≤ 9) :
    loadItems (asRaw (("default", ⟨"", d⟩) :: numberSecs 1 secs)) onDisk =
      buildDoc (d.filter onDisk) (secs.map fun s => (s.1, s.2.filter onDisk)) := by
  have hkeys : (asRaw (("default", (⟨"", d⟩ : SectionData)) :: numberSecs 1 secs)).map Prod.fst
      = "default" :: (List.range' 1 secs.length).map Nat.repr := by
    rw [asRaw_keys, List.map_cons, numberSecs_keys]
  have hsorted : List.Sorted sectionKeyLE
      ("default" :: (List.range' 1 secs.length).map Nat.repr) := by
    rw [List.sorted_cons]
    refine ⟨fun b _ => sectionKeyLE_default b, ?_⟩
    rw [List.Sorted, List.pairwise_map]
    apply List.Pairwise.imp_of_mem ?_ (pairwise_lt_range' secs.length 1)
    intro a b ha hb hab
    rw [List.mem_range'] at hb
    obtain ⟨i, hi, rfl⟩ := hb
    exact repr_keyLE_of_le9 (Nat.le_of_lt hab) (by omega)
  have hsk : sortedKeys (asRaw (("default", (⟨"", d⟩ : SectionData)) :: numberSecs 1 secs)) =
      "default" :: (List.range' 1 secs.length).map Nat.repr := by
    rw [sortedKeys, hkeys]
    exact hsorted.insertionSort_eq
  rw [loadItems, hsk]
  have hlookdef : (asRaw (("default", (⟨"", d⟩ : SectionData)) :: numberSecs 1 secs)).lookup
      "default" = some (some ⟨"", d⟩) := by
    rw [lookup_asRaw]
    simp [List.lookup_cons]
  simp only [loadGo, hlookdef]
  have hrest : loadGo (asRaw (("default", (⟨"", d⟩ : SectionData)) :: numberSecs 1 secs)) onDisk
      ((List.range' 1 secs.length).map Nat.repr) =
      secsItems (secs.map fun s => (s.1, s.2.filter onDisk)) := by
    apply loadGo_secs
    intro i hi
    rw [lookup_asRaw]
    have hne : (Nat.repr (1 + i) == "default") = false := by
      rw [beq_eq_false_iff_ne]
      exact repr_ne_default (1 + i)
    simp only [List.lookup_cons, hne]
    rw [lookup_numberSecs secs 1 i hi]
    rfl
  rw [hrest]
  simp [loadSection, buildDoc]

/-! ## Positions inside a document -/

theorem headerPos_eq (d : List String) (secs : List (String × List String)) (k : Nat) :
    headerPos d secs k = d.length + sumLen (secs.take k) := rfl

theorem secsItems_append (a b : List (String × List String)) :
    secsItems (a ++ b) = secsItems a ++ secsItems b := by
  induction a with
  | nil => rfl
  | cons s rest ih => cases s; simp [secsItems, ih]

theorem buildDoc_nil_eq (secs : List (String × List String)) :
    buildDoc [] secs = secsItems secs := rfl

theorem buildDoc_cons_split (d : List String) (h : String) (fs : List String)
    (rest : List (String × List String)) :
    buildDoc d ((h, fs) :: rest) =
      (d.map Item.file ++ Item.header h :: fs.map Item.file) ++ secsItems rest := by
  simp [buildDoc, secsItems]

theorem take_headerPos : ∀ (k : Nat) (secs : List (String × List String)) (d : List String),
    k ≤ secs.length →
    (buildDoc d secs).take (headerPos d secs k) = buildDoc d (secs.take k) := by
  intro k
  induction k with
  | zero =>
    intro secs d _
    simp only [headerPos_eq, List.take_zero, sumLen, List.map_nil, List.sum_nil, Nat.add_zero]
    rw [take_buildDoc]
    simp [buildDoc, secsItems]
  | succ k ih =>
    intro secs d hk
    cases secs with
    | nil => simp at hk
    | cons s rest =>
      cases s with
      | mk h fs =>
        have hk' : k ≤ rest.length := by simpa using hk
        rw [buildDoc_cons_split]
        have hlenA : (d.map Item.file ++ Item.header h :: fs.map Item.file).length =
            d.length + (1 + fs.length) := by simp; omega
        have hpos : headerPos d ((h, fs) :: rest) (k + 1) =
            (d.map Item.file ++ Item.header h :: fs.map Item.file).length +
              headerPos [] rest k := by
          rw [hlenA]
          simp [headerPos_eq, sumLen]
          omega
        rw [hpos, List.take_append_eq_append_take]
        rw [List.take_of_length_le (by omega), Nat.add_sub_cancel_left]
        rw [← buildDoc_nil_eq, ih rest [] hk', List.take_succ_cons]
        simp [buildDoc, buildDoc_nil_eq, secsItems]

theorem drop_headerPos : ∀ (k : Nat) (secs : List (String × List String)) (d : List String),
    k ≤ secs.length →
    (buildDoc d secs).drop (headerPos d secs k) = secsItems (secs.drop k) := by
  intro k
  induction k with
  | zero =>
    intro secs d _
    simp only [headerPos_eq, List.take_zero, sumLen, List.map_nil, List.sum_nil, Nat.add_zero]
    rw [drop_buildDoc]
    rfl
  | succ k ih =>
    intro secs d hk
    cases secs with
    | nil => simp at hk
    | cons s rest =>
      cases s with
      | mk h fs =>
        have hk' : k ≤ rest.length := by simpa using hk
        rw [buildDoc_cons_split]
        have hlenA : (d.map Item.file ++ Item.header h :: fs.map Item.file).length =
            d.length + (1 + fs.length) := by simp; omega
        have hpos : headerPos d ((h, fs) :: rest) (k + 1) =
            (d.map Item.file ++ Item.header h :: fs.map Item.file).length +
              headerPos [] rest k := by
          rw [hlenA]
          simp [headerPos_eq, sumLen]
          omega
        rw [hpos, List.drop_append_eq_append_drop]
        rw [List.drop_eq_nil_of_le (by omega), Nat.add_sub_cancel_left, List.nil_append]
        rw [← buildDoc_nil_eq, ih rest [] hk']
        rfl

theorem length_secsItems (secs : List (String × List String)) :
    (secsItems secs).length = sumLen secs := by
  induction secs with
  | nil => rfl
  | cons s rest ih => cases s; simp [secsItems, sumLen, ih]; omega

theorem length_buildDoc (d : List String) (secs : List (String × List String)) :
    (buildDoc d secs).length = d.length + sumLen secs := by
  simp [buildDoc, length_secsItems]

theorem sumLen_append (a b : List (String × List String)) :
    sumLen (a ++ b) = sumLen a + sumLen b := by
  simp [sumLen]

theorem sumLen_cons (h : String) (fs : List String)
    (rest : List (String × List String)) :
    sumLen ((h, fs) :: rest) = 1 + fs.length + sumLen rest := by
  simp [sumLen, Nat.add_assoc]

theorem sumLen_take_succ (secs : List (String × List String)) (j : Nat)
    (hj : j < secs.length) :
    sumLen (secs.take (j + 1)) =
      sumLen (secs.take j) + (1 + (secs.getD j ("", [])).2.length) := by
  rw [List.take_succ, sumLen_append, List.getElem?_eq_getElem hj]
  simp [sumLen, List.getD_eq_getElem?_getD, List.getElem?_eq_getElem hj]

theorem lastHeaderSucc_append : ∀ (a b : List Item),
    lastHeaderSucc (a ++ b) =
      if lastHeaderSucc b = 0 then lastHeaderSucc a else a.length + lastHeaderSucc b := by
  intro a b
  induction a with
  | nil => by_cases hb : lastHeaderSucc b = 0 <;> simp [hb, lastHeaderSucc]
  | cons it rest ih =>
    simp only [List.cons_append, lastHeaderSucc, List.length_cons, List.append_eq]
    rw [ih]
    by_cases hb : lastHeaderSucc b = 0
    · simp [hb]
    · have h1 : rest.length + lastHeaderSucc b ≠ 0 := by omega
      simp [hb, h1]
      omega

theorem lastHeaderSucc_mapFile (fs : List String) :
    lastHeaderSucc (fs.map Item.file) = 0 := by
  induction fs with
  | nil => rfl
  | cons f fs ih => simp [lastHeaderSucc, ih, isHeader]

theorem lastHeaderSucc_secsItems : ∀ (secs : List (String × List String)), secs ≠ [] →
    lastHeaderSucc (secsItems secs) = sumLen (secs.take (secs.length - 1)) + 1 := by
  intro secs
  induction secs with
  | nil => intro h; exact absurd rfl h
  | cons s rest ih =>
    intro _
    cases s with
    | mk h fs =>
      by_cases hrne : rest = []
      · subst hrne
        simp [secsItems, lastHeaderSucc, lastHeaderSucc_append, lastHeaderSucc_mapFile,
          isHeader, sumLen]
      · have hihr := ih hrne
        have hpos : lastHeaderSucc (secsItems rest) ≠ 0 := by rw [hihr]; omega
        have hlast : lastHeaderSucc (secsItems ((h, fs) :: rest)) =
            fs.length + lastHeaderSucc (secsItems rest) + 1 := by
          simp only [secsItems, lastHeaderSucc, lastHeaderSucc_append, if_neg hpos]
          have h2 : (fs.map Item.file).length + lastHeaderSucc (secsItems rest) ≠ 0 := by
            simp only [List.length_map]
            omega
          simp [h2, hpos]
        rw [hlast, hihr]
        have hlen : ((h, fs) :: rest).length - 1 = rest.length := by
          rw [List.length_cons]
          omega
        rw [hlen]
        have hlp : 0 < rest.length := List.length_pos.mpr hrne
        have htk : rest.length = (rest.length - 1) + 1 := by omega
        conv_rhs => rw [htk, List.take_succ_cons]
        rw [sumLen_cons]
        omega

theorem lastHeaderSucc_buildDoc_take (d : List String)
    (secs : List (String × List String)) (k : Nat)
    (hk1 : 1 ≤ k) (hk2 : k ≤ secs.length) :
    lastHeaderSucc (buildDoc d (secs.take k)) = headerPos d secs (k - 1) + 1 := by
  rw [buildDoc, lastHeaderSucc_append]
  have htk : secs.take k ≠ [] := by
    intro h
    have hlen := congrArg List.length h
    simp only [List.length_take, List.length_nil] at hlen
    omega
  rw [lastHeaderSucc_secsItems _ htk]
  have hne : ¬ (sumLen ((secs.take k).take ((secs.take k).length - 1)) + 1 = 0) := by omega
  rw [if_neg hne]
  have hlen : (secs.take k).length = k := by simp; omega
  rw [hlen, List.take_take]
  have hmin : min (k - 1) k = k - 1 := by omega
  rw [hmin, headerPos_eq]
  simp
  omega

theorem dropWhile_notHeader_mapFile_append (fs : List String) (X : List Item) :
    (fs.map Item.file ++ X).dropWhile (fun it => !isHeader it) =
      X.dropWhile (fun it => !isHeader it) := by
  induction fs with
  | nil => rfl
  | cons f fs ih => simp [List.dropWhile_cons, isHeader, ih]

theorem dropWhile_notHeader_secsItems (secs : List (String × List String)) :
    (secsItems secs).dropWhile (fun it => !isHeader it) = secsItems secs := by
  cases secs with
  | nil => rfl
  | cons s rest => cases s; simp [secsItems, List.dropWhile_cons, isHeader]

theorem getElem?_headerPos (d : List String) (secs : List (String × List String))
    (k : Nat) (hk : k < secs.length) :
    (buildDoc d secs)[headerPos d secs k]? =
      some (Item.header (secs.getD k ("", [])).1) := by
  rw [← List.head?_drop, drop_headerPos k secs d (Nat.le_of_lt hk),
    List.drop_eq_getElem_cons hk]
  cases hsk : secs[k] with
  | mk h fs =>
    simp [secsItems, List.getD_eq_getElem?_getD, List.getElem?_eq_getElem hk, hsk]

theorem drop_headerPos_succ (d : List String) (secs : List (String × List String))
    (k : Nat) (hk : k < secs.length) :
    (buildDoc d secs).drop (headerPos d secs k + 1) =
      (secs.getD k ("", [])).2.map Item.file ++ secsItems (secs.drop (k + 1)) := by
  rw [← List.drop_drop, drop_headerPos k secs d (Nat.le_of_lt hk),
    List.drop_eq_getElem_cons hk]
  cases hsk : secs[k] with
  | mk h fs =>
    simp [secsItems, List.getD_eq_getElem?_getD, List.getElem?_eq_getElem hk, hsk]

/-- What `delete_header` does to the `k`-th non-default section of a document:
the section's header is removed and its files are inserted, in order, at the
start of the file run of the nearest preceding section (the default section
when `k = 0`). -/
theorem delete_header_buildDoc (d : List String) (secs : List (String × List String))
    (k : Nat) (hk : k < secs.length) :
    delete_header (buildDoc d secs) (headerPos d secs k) =
      if k = 0 then buildDoc ((secs.getD 0 ("", [])).2 ++ d) (secs.drop 1)
      else buildDoc d (rehomeDelete secs k) := by
  have hget := getElem?_headerPos d secs k hk
  simp only [delete_header, hget]
  have hrun : ((buildDoc d secs).drop (headerPos d secs k + 1)).takeWhile
      (fun it => !isHeader it) = (secs.getD k ("", [])).2.map Item.file := by
    rw [drop_headerPos_succ d secs k hk, takeWhile_notHeader_mapFile_append,
      takeWhile_notHeader_secsItems, List.append_nil]
  have hdropw : ((buildDoc d secs).drop (headerPos d secs k + 1)).dropWhile
      (fun it => !isHeader it) = secsItems (secs.drop (k + 1)) := by
    rw [drop_headerPos_succ d secs k hk, dropWhile_notHeader_mapFile_append,
      dropWhile_notHeader_secsItems]
  have htake : (buildDoc d secs).take (headerPos d secs k) = buildDoc d (secs.take k) :=
    take_headerPos k secs d (Nat.le_of_lt hk)
  rw [hrun, hdropw, htake]
  by_cases hk0 : k = 0
  · subst hk0
    rw [if_pos rfl]
    have htgt : lastHeaderSucc (buildDoc d (secs.take 0)) = 0 := by
      simp [buildDoc, secsItems, lastHeaderSucc_mapFile]
    rw [htgt]
    simp only [List.take_zero, List.drop_zero, List.nil_append]
    simp [buildDoc, secsItems, List.map_append, List.append_assoc]
  · have hk1 : 1 ≤ k := by omega
    rw [if_neg hk0]
    rw [lastHeaderSucc_buildDoc_take d secs k hk1 (Nat.le_of_lt hk)]
    have hlenA : (buildDoc d (secs.take k)).length = d.length + sumLen (secs.take k) := by
      rw [length_buildDoc]
    have hbound : headerPos d secs (k - 1) + 1 ≤ (buildDoc d (secs.take k)).length := by
      rw [hlenA, headerPos_eq]
      have hsucc := sumLen_take_succ secs (k - 1) (by omega)
      rw [show k - 1 + 1 = k by omega] at hsucc
      omega
    have hgetD : (secs.take k).getD (k - 1) ("", []) = secs.getD (k - 1) ("", []) := by
      rw [List.getD_eq_getElem?_getD, List.getD_eq_getElem?_getD,
        List.getElem?_take_of_lt (by omega)]
    have h1 : headerPos d secs (k - 1) = headerPos d (secs.take k) (k - 1) := by
      rw [headerPos_eq, headerPos_eq, List.take_take]
      have : min (k - 1) k = k - 1 := by omega
      rw [this]
    have hklen : k - 1 < (secs.take k).length := by
      rw [List.length_take]
      omega
    have htakeA : (buildDoc d (secs.take k)).take (headerPos d secs (k - 1) + 1) =
        buildDoc d (secs.take (k - 1)) ++ [Item.header (secs.getD (k - 1) ("", [])).1] := by
      rw [List.take_succ, h1,
        take_headerPos (k - 1) (secs.take k) d (Nat.le_of_lt hklen),
        getElem?_headerPos d (secs.take k) (k - 1) hklen]
      rw [List.take_take]
      have hm : min (k - 1) k = k - 1 := by omega
      rw [hm, hgetD]
      rfl
    have hdropA : (buildDoc d (secs.take k)).drop (headerPos d secs (k - 1) + 1) =
        (secs.getD (k - 1) ("", [])).2.map Item.file := by
      rw [h1, drop_headerPos_succ d (secs.take k) (k - 1) hklen]
      rw [show k - 1 + 1 = k by omega]
      have hdk : (secs.take k).drop k = [] := by
        apply List.drop_eq_nil_of_le
        rw [List.length_take]
        omega
      rw [hdk, hgetD]
      simp [secsItems]
    rw [List.take_append_eq_append_take, List.drop_append_eq_append_drop]
    have hz : headerPos d secs (k - 1) + 1 - (buildDoc d (secs.take k)).length = 0 := by
      omega
    rw [hz, List.take_zero, List.drop_zero, List.append_nil, htakeA, hdropA]
    have hsplit : secs.take (k - 1) ++
        ((secs.getD (k - 1) ("", [])).1,
          (secs.getD k ("", [])).2 ++ (secs.getD (k - 1) ("", [])).2) ::
          secs.drop (k + 1) = rehomeDelete secs k := by
      simp [rehomeDelete]
    rw [← hsplit]
    simp [buildDoc, secsItems_append, secsItems, List.map_append, List.append_assoc]

/-! ## Uniqueness through load -/

theorem flatMap_congr_mem {α β : Type} {l : List α} {f g : α → List β}
    (h : ∀ a ∈ l, f a = g a) : l.flatMap f = l.flatMap g := by
  induction l with
  | nil => rfl
  | cons a rest ih =>
    simp only [List.flatMap_cons]
    rw [h a (by simp), ih fun b hb => h b (by simp [hb])]

theorem widgetFiles_loadSection (k : String) (s : SectionData) (onDisk : String → Bool) :
    widgetFiles (loadSection k s onDisk) = s.files.filter onDisk := by
  rw [loadSection, widgetFiles_append, widgetFiles_mapFile]
  by_cases hd : k = "default" <;> simp [hd, widgetFiles]

theorem widgetFiles_loadGo_sublist (fg : RawDict) (onDisk : String → Bool) :
    ∀ ks : List String,
    List.Sublist (widgetFiles (loadGo fg onDisk ks)) (ks.flatMap (lookupFiles fg)) := by
  intro ks
  induction ks with
  | nil => simp [loadGo, widgetFiles]
  | cons k ks ih =>
    simp only [loadGo, List.flatMap_cons]
    cases hl : fg.lookup k with
    | none => simp [widgetFiles]
    | some ov =>
      cases ov with
      | none => simp [widgetFiles]
      | some s =>
        rw [widgetFiles_append, lookupFiles, hl]
        exact List.Sublist.append
          (by rw [widgetFiles_loadSection]; exact List.filter_sublist _) ih

theorem flatMap_keys_lookup : ∀ (fg : RawDict), (fg.map Prod.fst).Nodup →
    (fg.map Prod.fst).flatMap (lookupFiles fg) = fg.flatMap entryFiles := by
  intro fg
  induction fg with
  | nil => intro _; rfl
  | cons kv rest ih =>
    intro hnd
    cases kv with
    | mk k v =>
      simp only [List.map_cons, List.flatMap_cons]
      have hhead : lookupFiles ((k, v) :: rest) k = entryFiles (k, v) := by
        cases v <;> simp [lookupFiles, List.lookup_cons, entryFiles]
      have hknotin : k ∉ rest.map Prod.fst := (List.nodup_cons.mp hnd).1
      have htail : (rest.map Prod.fst).flatMap (lookupFiles ((k, v) :: rest)) =
          (rest.map Prod.fst).flatMap (lookupFiles rest) := by
        apply flatMap_congr_mem
        intro k' hk'
        have hne : (k' == k) = false := by
          rw [beq_eq_false_iff_ne]
          rintro rfl
          exact hknotin hk'
        simp [lookupFiles, List.lookup_cons, hne]
      rw [hhead, htail, ih (List.Nodup.of_cons hnd)]

theorem widgetFiles_loadItems_nodup (fg : RawDict) (onDisk : String → Bool)
    (hkeys : (fg.map Prod.fst).Nodup) (hfiles : (fg.flatMap entryFiles).Nodup) :
    (widgetFiles (loadItems fg onDisk)).Nodup := by
  have hsub := widgetFiles_loadGo_sublist fg onDisk (sortedKeys fg)
  have hperm : List.Perm (sortedKeys fg) (fg.map Prod.fst) :=
    List.perm_insertionSort sectionKeyLE (fg.map Prod.fst)
  have hpermf : List.Perm ((sortedKeys fg).flatMap (lookupFiles fg))
      ((fg.map Prod.fst).flatMap (lookupFiles fg)) :=
    hperm.flatMap_right (lookupFiles fg)
  have hnd2 : ((sortedKeys fg).flatMap (lookupFiles fg)).Nodup := by
    rw [hpermf.nodup_iff, flatMap_keys_lookup fg hkeys]
    exact hfiles
  exact hnd2.sublist hsub

/-! ## Uniqueness through every operation -/

theorem foldl_removeFirstFile_sublist : ∀ (names : List String) (items : List Item),
    List.Sublist (names.foldl removeFirstFile items) items := by
  intro names
  induction names with
  | nil => intro items; exact List.Sublist.refl items
  | cons n ns ih =>
    intro items
    rw [List.foldl_cons]
    exact (ih (removeFirstFile items n)).trans (removeFirstFile_sublist items n)

theorem widgetFiles_handle_nodup (items : List Item) (raw : List String)
    (h : (widgetFiles items).Nodup) :
    (widgetFiles (handle_folder_change items raw)).Nodup := by
  simp only [handle_folder_change]
  set names := (setList (widgetFiles items)).filter
    (fun f => !(setList (listFiles raw)).contains f) with hnames
  set ar := names.foldl removeFirstFile items with har
  set pos := firstHeaderPos ar with hpos
  set added := (setList (listFiles raw)).filter
    (fun f => !(setList (widgetFiles items)).contains f) with hadded
  have harsub : List.Sublist (widgetFiles ar) (widgetFiles items) :=
    widgetFiles_sublist (foldl_removeFirstFile_sublist names items)
  have harnd : (widgetFiles ar).Nodup := h.sublist harsub
  have hsplit : widgetFiles (ar.take pos) ++ widgetFiles (ar.drop pos) = widgetFiles ar := by
    rw [← widgetFiles_append, List.take_append_drop]
  have hperm : List.Perm (widgetFiles (ar.take pos ++ added.map Item.file ++ ar.drop pos))
      (added ++ widgetFiles ar) := by
    rw [widgetFiles_append, widgetFiles_append, widgetFiles_mapFile, ← hsplit,
      List.append_assoc]
    exact List.perm_append_comm_assoc _ _ _
  rw [hperm.nodup_iff]
  apply List.Nodup.append ?_ harnd
  · intro x hx1 hx2
    have hx1m : x ∈ setList (listFiles raw) := (List.mem_filter.mp hx1).1
    have hx1f := (List.mem_filter.mp hx1).2
    have hxw : x ∈ widgetFiles items := (widgetFiles_sublist
      (foldl_removeFirstFile_sublist names items)).mem hx2
    have : x ∈ setList (widgetFiles items) := mem_setList.mpr hxw
    rw [contains_true_iff.mpr this] at hx1f
    exact Bool.noConfusion hx1f
  · exact (setList_nodup _).filter _

theorem widgetFiles_delete_header_perm (items : List Item) (i : Nat) :
    List.Perm (widgetFiles (delete_header items i)) (widgetFiles items) := by
  unfold delete_header
  cases hgi : items[i]? with
  | none => exact List.Perm.refl _
  | some it =>
    cases it with
    | file f => exact List.Perm.refl _
    | header lbl =>
      obtain ⟨hlt, hgl⟩ := List.getElem?_eq_some_iff.mp hgi
      set X := items.drop (i + 1) with hX
      set run := X.takeWhile (fun it => !isHeader it) with hrun
      set DW := X.dropWhile (fun it => !isHeader it) with hDW
      set A := items.take i ++ DW with hA
      set t := lastHeaderSucc (items.take i) with ht
      have hitems : items = items.take i ++ Item.header lbl :: X := by
        rw [hX]
        conv_lhs => rw [← List.take_append_drop i items]
        rw [List.drop_eq_getElem_cons hlt, hgl]
      have hwA : widgetFiles (A.take t) ++ widgetFiles (A.drop t) = widgetFiles A := by
        rw [← widgetFiles_append, List.take_append_drop]
      have hrd : widgetFiles run ++ widgetFiles DW = widgetFiles X := by
        rw [← widgetFiles_append, hrun, hDW, List.takeWhile_append_dropWhile]
      have step1 : List.Perm (widgetFiles (A.take t ++ run ++ A.drop t))
          (widgetFiles run ++ widgetFiles A) := by
        rw [widgetFiles_append, widgetFiles_append, List.append_assoc, ← hwA]
        exact List.perm_append_comm_assoc _ _ _
      have step2 : List.Perm (widgetFiles run ++ widgetFiles A) (widgetFiles items) := by
        conv_rhs => rw [hitems]
        rw [hA, widgetFiles_append]
        conv_rhs => rw [widgetFiles_append, widgetFiles_cons_header, ← hrd]
        exact List.perm_append_comm_assoc _ _ _
      exact step1.trans step2

theorem widgetFiles_finish_editing (items : List Item) (i : Nat) (txt : String) :
    widgetFiles (finish_editing_header items i txt) = widgetFiles items := by
  unfold finish_editing_header
  cases hgi : items[i]? with
  | none => rfl
  | some it =>
    cases it with
    | file f => rfl
    | header lbl =>
      obtain ⟨hlt, hgl⟩ := List.getElem?_eq_some_iff.mp hgi
      rw [List.set_eq_take_cons_drop _ hlt]
      conv_rhs => rw [← List.take_append_drop i items, List.drop_eq_getElem_cons hlt, hgl]
      rw [widgetFiles_append, widgetFiles_append, widgetFiles_cons_header,
        widgetFiles_cons_header]

theorem applyOp_nodup (items : List Item) (op : Op)
    (h : (widgetFiles items).Nodup) : (widgetFiles (applyOp items op)).Nodup := by
  cases op with
  | reconcile raw => exact widgetFiles_handle_nodup items raw h
  | addHeader =>
    simp only [applyOp, add_header]
    rw [widgetFiles_append]
    simpa [widgetFiles] using h
  | deleteHeader i =>
    simp only [applyOp]
    rw [(widgetFiles_delete_header_perm items i).nodup_iff]
    exact h
  | renameHeader i txt =>
    simp only [applyOp]
    rw [widgetFiles_finish_editing]
    exact h
  | save => exact h

theorem foldl_applyOp_nodup (ops : List Op) : ∀ (items : List Item),
    (widgetFiles items).Nodup → (widgetFiles (ops.foldl applyOp items)).Nodup := by
  induction ops with
  | nil => intro items h; exact h
  | cons op ops ih =>
    intro items h
    rw [List.foldl_cons]
    exact ih (applyOp items op) (applyOp_nodup items op h)

theorem setFolderPath_items_nodup (sidecar : Option RawDict) (raw : List String)
    (hclean : ∀ fg, sidecar = some fg →
      (fg.map Prod.fst).Nodup ∧ (fg.flatMap entryFiles).Nodup)
    (hraw : raw.Nodup) :
    (widgetFiles (setFolderPath sidecar raw).items).Nodup := by
  simp only [setFolderPath]
  apply widgetFiles_handle_nodup
  split
  · rw [widgetFiles_mapFile]
    exact hraw.filter _
  · cases sidecar with
    | none => simp [widgetFiles]
    | some fg =>
      obtain ⟨h1, h2⟩ := hclean fg rfl
      exact widgetFiles_loadItems_nodup fg _ h1 h2

/-! ## Claim C8 -/

theorem loadGo_filter (fg : RawDict) (onDisk : String → Bool) :
    ∀ ks, loadGo fg onDisk ks = (loadGo fg (fun _ => true) ks).filter (keepFile onDisk) := by
  intro ks
  induction ks with
  | nil => rfl
  | cons k ks ih =>
    simp only [loadGo]
    cases hl : fg.lookup k with
    | none => rfl
    | some ov =>
      cases ov with
      | none => rfl
      | some s =>
        rw [List.filter_append, ← ih]
        congr 1
        by_cases hd : k = "default" <;>
          simp [loadSection, hd, List.filter_append, filter_mapFile, keepFile]

/-- C8 (confirmed).  Loading with an on-disk test equals loading everything
and then silently dropping exactly the file rows whose names are missing:
the omission is local to each file and leaves headers and all other files
untouched, with no error path. -/
theorem claim_missing_file_omission (fg : RawDict) (onDisk : String → Bool) :
    loadItems fg onDisk = (loadItems fg (fun _ => true)).filter (keepFile onDisk) :=
  loadGo_filter fg onDisk (sortedKeys fg)

/-! ## Claim C6 -/

/-- C6 (corrected).  The load traversal enumerates the sections in the order
`sortedKeys`, which is a permutation of the stored keys that is sorted by
`sectionKeyLE`: the reserved key `"default"` first, then plain code-point
lexicographic string order — not numeric order. -/
theorem claim_load_ordering (fg : RawDict) (onDisk : String → Bool) :
    loadItems fg onDisk = loadGo fg onDisk (sortedKeys fg) ∧
    List.Sorted sectionKeyLE (sortedKeys fg) ∧
    List.Perm (sortedKeys fg) (fg.map Prod.fst) :=
  ⟨rfl, List.sorted_insertionSort sectionKeyLE (fg.map Prod.fst),
    List.perm_insertionSort sectionKeyLE (fg.map Prod.fst)⟩

/-- C6 counterexample: with stored keys "2" and "10" (both sections intact on
disk), load puts section "10" before section "2", while the claim's
numeric-aware order predicts "2" before "10". -/
theorem claim_load_ordering_cex :
    loadItems [("default", some ⟨"", []⟩), ("2", some ⟨"B", ["b"]⟩),
        ("10", some ⟨"A", ["a"]⟩)] (fun _ => true) =
      [Item.header "A", Item.file "a", Item.header "B", Item.file "b"] ∧
    loadItems [("default", some ⟨"", []⟩), ("2", some ⟨"B", ["b"]⟩),
        ("10", some ⟨"A", ["a"]⟩)] (fun _ => true) ≠
      [Item.header "B", Item.file "b", Item.header "A", Item.file "a"] := by
  decide

/-! ## Claim C5 -/

/-- C5 (confirmed).  Reconciliation drops the file rows that are gone from
disk and inserts every on-disk name absent from the document, in enumeration
order, at the end of the default section's file list — immediately before
the first non-default section header. -/
theorem claim_addition_placement (d : List String) (secs : List (String × List String))
    (raw : List String) (hnd : (docFiles d secs).Nodup) :
    handle_folder_change (buildDoc d secs) raw =
      buildDoc
        (d.filter (fun f => (setList (listFiles raw)).contains f) ++
          (setList (listFiles raw)).filter (fun f => !(docFiles d secs).contains f))
        (secs.map fun s => (s.1, s.2.filter (fun f => (setList (listFiles raw)).contains f))) :=
  handle_folder_change_buildDoc d secs raw hnd

/-- C5 witness: `[default:[f1], A:[f2]]` against live files `{f1,f2,f3}`
yields `[default:[f1,f3], A:[f2]]`. -/
theorem claim_addition_placement_witness :
    handle_folder_change (buildDoc ["f1"] [("A", ["f2"])]) ["f1", "f2", "f3"] =
      buildDoc ["f1", "f3"] [("A", ["f2"])] := by
  have h := claim_addition_placement ["f1"] [("A", ["f2"])] ["f1", "f2", "f3"] (by decide)
  revert h
  decide

/-! ## Claim C3 -/

/-- C3 (corrected).  Deleting the `k`-th non-default section re-homes its
files to the nearest preceding section (the default section when `k = 0`),
preserving their relative order, but inserts them at the START of the target
section's files (right after its header), not appended after them. -/
theorem claim_delete_rehoming (d : List String) (secs : List (String × List String))
    (k : Nat) (hk : k < secs.length) :
    delete_header (buildDoc d secs) (headerPos d secs k) =
      if k = 0 then buildDoc ((secs.getD 0 ("", [])).2 ++ d) (secs.drop 1)
      else buildDoc d (rehomeDelete secs k) :=
  delete_header_buildDoc d secs k hk

/-- C3 counterexample: deleting B in `[default:[], A:[f1], B:[f2,f3]]` (the
header at index 2) yields `[default:[], A:[f2,f3,f1]]`, not the claimed
`[default:[], A:[f1,f2,f3]]`. -/
theorem claim_delete_rehoming_cex :
    delete_header [Item.header "A", Item.file "f1", Item.header "B", Item.file "f2",
        Item.file "f3"] 2 =
      [Item.header "A", Item.file "f2", Item.file "f3", Item.file "f1"] ∧
    delete_header [Item.header "A", Item.file "f1", Item.header "B", Item.file "f2",
        Item.file "f3"] 2 ≠
      [Item.header "A", Item.file "f1", Item.file "f2", Item.file "f3"] := by
  decide

theorem claim_delete_rehoming_witness :
    delete_header (buildDoc [] [("A", ["f1"]), ("B", ["f2", "f3"])])
        (headerPos [] [("A", ["f1"]), ("B", ["f2", "f3"])] 1) =
      if (1 : Nat) = 0
      then buildDoc (([("A", ["f1"]), ("B", ["f2", "f3"])].getD 0 ("", [])).2 ++ [])
        ([("A", ["f1"]), ("B", ["f2", "f3"])].drop 1)
      else buildDoc [] (rehomeDelete [("A", ["f1"]), ("B", ["f2", "f3"])] 1) := by
  have h := claim_delete_rehoming [] [("A", ["f1"]), ("B", ["f2", "f3"])] 1 (by decide)
  revert h
  decide

/-! ## Claim C4 -/

/-- C4 (corrected).  For a document whose non-default sections all hold at
least one file, save emits the default section first and then the sections
in display order under contiguous keys "1", "2", …, regardless of any
previously persisted keys (the serialization never reads them). -/
theorem claim_save_renumbering (d : List String) (secs : List (String × List String))
    (hne : ∀ s ∈ secs, s.2 ≠ []) :
    save_yaml (buildDoc d secs) = ("default", ⟨"", d⟩) :: numberSecs 1 secs ∧
    (save_yaml (buildDoc d secs)).map Prod.fst =
      "default" :: (List.range' 1 secs.length).map Nat.repr := by
  refine ⟨save_yaml_buildDoc d secs hne, ?_⟩
  rw [save_yaml_buildDoc d secs hne, List.map_cons, numberSecs_keys]

/-- C4 counterexample: with an empty non-default section A before section B,
save drops A entirely and emits B under key "2" — the key set has a gap and
section A is not serialized at all. -/
theorem claim_save_renumbering_cex :
    (save_yaml [Item.header "A", Item.header "B", Item.file "f"]).map Prod.fst =
      ["default", "2"] ∧
    (∀ kv ∈ save_yaml [Item.header "A", Item.header "B", Item.file "f"],
      kv.2.header ≠ "A") := by
  decide

theorem claim_save_renumbering_witness :
    save_yaml (buildDoc ["g"] [("A", ["f1"]), ("B", ["f2"])]) =
      ("default", ⟨"", ["g"]⟩) :: numberSecs 1 [("A", ["f1"]), ("B", ["f2"])] ∧
    (save_yaml (buildDoc ["g"] [("A", ["f1"]), ("B", ["f2"])])).map Prod.fst =
      "default" :: (List.range' 1 ([("A", ["f1"]), ("B", ["f2"])] :
        List (String × List String)).length).map Nat.repr := by
  have h := claim_save_renumbering ["g"] [("A", ["f1"]), ("B", ["f2"])] (by decide)
  revert h
  decide

/-! ## Claim C2 -/

/-- C2 (corrected).  If the sidecar document itself satisfies global
uniqueness (its keys are distinct and no filename is listed twice across all
its sections), then after load and after any sequence of reconciliations,
header additions/deletions, renames and saves, the filenames across all
sections of the widget remain globally unique (the concatenated file list
has no duplicate). -/
theorem claim_global_uniqueness (fg : RawDict) (raw : List String) (ops : List Op)
    (hkeys : (fg.map Prod.fst).Nodup)
    (hfiles : (fg.flatMap entryFiles).Nodup)
    (hraw : raw.Nodup) :
    (widgetFiles (ops.foldl applyOp (setFolderPath (some fg) raw).items)).Nodup := by
  apply foldl_applyOp_nodup
  refine setFolderPath_items_nodup (some fg) raw ?_ hraw
  intro fg' h
  cases h
  exact ⟨hkeys, hfiles⟩

/-- C2 counterexample: a sidecar that lists the same filename in two
sections is loaded verbatim — the file appears in both sections after load,
violating global uniqueness for that sidecar input (empty operation
sequence). -/
theorem claim_global_uniqueness_cex :
    ¬ (widgetFiles (setFolderPath
        (some [("default", some ⟨"", ["f"]⟩), ("1", some ⟨"A", ["f"]⟩)])
        ["file_groups.yaml", "f"]).items).Nodup := by
  decide

theorem claim_global_uniqueness_witness :
    (widgetFiles (([Op.addHeader, Op.reconcile ["file_groups.yaml", "a", "b"],
        Op.save]).foldl applyOp (setFolderPath
        (some [("default", some ⟨"", ["a"]⟩)]) ["file_groups.yaml", "a"]).items)).Nodup :=
  claim_global_uniqueness [("default", some ⟨"", ["a"]⟩)] ["file_groups.yaml", "a"]
    [Op.addHeader, Op.reconcile ["file_groups.yaml", "a", "b"], Op.save]
    (by decide) (by decide) (by decide)

/-! ## Claim C9 -/

theorem flatMap_snd_filter (p : String → Bool) (secs : List (String × List String)) :
    (secs.map (fun s => (s.1, s.2.filter p))).flatMap Prod.snd =
      (secs.flatMap Prod.snd).filter p := by
  induction secs with
  | nil => rfl
  | cons s rest ih => cases s; simp [List.filter_append, ih]

/-- C9 (confirmed).  For a document satisfying the global-uniqueness
invariant, reconciling twice against the same directory listing gives the
same item list as reconciling once. -/
theorem claim_reconcile_idempotent (d : List String) (secs : List (String × List String))
    (raw : List String) (hnd : (docFiles d secs).Nodup) :
    handle_folder_change (handle_folder_change (buildDoc d secs) raw) raw =
      handle_folder_change (buildDoc d secs) raw := by
  rw [handle_folder_change_buildDoc d secs raw hnd]
  set cur := setList (listFiles raw) with hcur
  set d1 := d.filter (fun f => cur.contains f) ++
    cur.filter (fun f => !(docFiles d secs).contains f) with hd1
  set secs1 := secs.map (fun s => (s.1, s.2.filter (fun f => cur.contains f))) with hsecs1
  have hflat1 : secs1.flatMap Prod.snd = (secs.flatMap Prod.snd).filter
      (fun f => cur.contains f) := by
    rw [hsecs1, flatMap_snd_filter]
  have hnud := List.nodup_append.mp hnd
  have hnd1 : (docFiles d1 secs1).Nodup := by
    rw [docFiles, hflat1]
    apply List.Nodup.append
    · rw [hd1]
      apply List.Nodup.append
      · exact hnud.1.filter _
      · exact (setList_nodup _).filter _
      · intro x hx1 hx2
        have hx1d : x ∈ d := List.mem_of_mem_filter hx1
        have hx2f := (List.mem_filter.mp hx2).2
        have : x ∈ docFiles d secs := by simp [docFiles, hx1d]
        rw [contains_true_iff.mpr this] at hx2f
        exact Bool.noConfusion hx2f
    · exact hnud.2.1.filter _
    · intro x hx1 hx2
      have hx2m : x ∈ secs.flatMap Prod.snd := List.mem_of_mem_filter hx2
      rw [hd1] at hx1
      rcases List.mem_append.mp hx1 with hx1 | hx1
      · exact hnud.2.2 (List.mem_of_mem_filter hx1) hx2m
      · have hx1f := (List.mem_filter.mp hx1).2
        have : x ∈ docFiles d secs := by simp [docFiles, hx2m]
        rw [contains_true_iff.mpr this] at hx1f
        exact Bool.noConfusion hx1f
  rw [handle_folder_change_buildDoc d1 secs1 raw hnd1]
  have hmemd1 : ∀ f ∈ d1, f ∈ cur := by
    intro f hf
    rw [hd1] at hf
    rcases List.mem_append.mp hf with hf | hf
    · exact contains_true_iff.mp (List.mem_filter.mp hf).2
    · exact List.mem_of_mem_filter hf
  have hd1filter : d1.filter (fun f => cur.contains f) = d1 := by
    apply List.filter_eq_self.mpr
    intro f hf
    exact contains_true_iff.mpr (hmemd1 f hf)
  have hsecs1filter : secs1.map (fun s => (s.1, s.2.filter (fun f => cur.contains f))) =
      secs1 := by
    rw [hsecs1]
    simp [List.filter_filter]
  have hadded : cur.filter (fun f => !(docFiles d1 secs1).contains f) = [] := by
    rw [List.filter_eq_nil_iff]
    intro f hf
    have hmem : f ∈ docFiles d1 secs1 := by
      by_cases hdoc : f ∈ docFiles d secs
      · rw [docFiles] at hdoc ⊢
        rcases List.mem_append.mp hdoc with hd0 | hs0
        · apply List.mem_append_left
          rw [hd1]
          apply List.mem_append_left
          exact List.mem_filter.mpr ⟨hd0, contains_true_iff.mpr hf⟩
        · apply List.mem_append_right
          rw [hflat1]
          exact List.mem_filter.mpr ⟨hs0, contains_true_iff.mpr hf⟩
      · apply List.mem_append_left
        rw [hd1]
        apply List.mem_append_right
        apply List.mem_filter.mpr
        refine ⟨hf, ?_⟩
        rw [contains_false_iff.mpr hdoc]
        rfl
    rw [contains_true_iff.mpr hmem]
    simp
  rw [hd1filter, hsecs1filter, hadded, List.append_nil]

theorem claim_reconcile_idempotent_witness :
    handle_folder_change (handle_folder_change (buildDoc ["f1"] [("A", ["f2"])])
        ["f1", "f3"]) ["f1", "f3"] =
      handle_folder_change (buildDoc ["f1"] [("A", ["f2"])]) ["f1", "f3"] := by
  have h := claim_reconcile_idempotent ["f1"] [("A", ["f2"])] ["f1", "f3"] (by decide)
  revert h
  decide

/-! ## Claim C7 -/

/-- C7 (corrected, amended to the whole-document failure modes).  When the
sidecar is absent, unreadable, or does not parse as a mapping at all, load
enumerates the regular files in the folder (excluding the sidecar itself),
builds a single default section containing exactly those files in
enumeration order, and immediately writes that synthesized document to the
sidecar file. -/
theorem claim_fallback_synthesis (raw : List String) :
    (setFolderPath none raw).items = (listFiles raw).map Item.file ∧
    (setFolderPath none raw).fallbackWrite = some (fallbackDoc (listFiles raw)) := by
  have hitems : (setFolderPath none raw).items =
      handle_folder_change ((listFiles raw).map Item.file) raw := rfl
  have hfb : (setFolderPath none raw).fallbackWrite =
      some (fallbackDoc (listFiles raw)) := rfl
  refine ⟨?_, hfb⟩
  rw [hitems]
  apply handle_folder_change_noop
  · intro f hf
    rwa [widgetFiles_mapFile] at hf
  · intro f hf
    rwa [widgetFiles_mapFile]

/-- C7 counterexample: a sidecar whose section "2" violates the schema (so
the document fails to parse as the expected schema part-way) does NOT fall
back: the items loaded before the failure are kept, no synthesized document
is written, and the result is not a single default section. -/
theorem claim_fallback_synthesis_cex :
    (setFolderPath (some [("default", some ⟨"", []⟩), ("1", some ⟨"A", ["a"]⟩),
        ("2", none)]) ["file_groups.yaml", "a", "b"]).fallbackWrite = none ∧
    (setFolderPath (some [("default", some ⟨"", []⟩), ("1", some ⟨"A", ["a"]⟩),
        ("2", none)]) ["file_groups.yaml", "a", "b"]).items =
      [Item.file "b", Item.header "A", Item.file "a"] := by
  decide

/-! ## Claim C10 -/

theorem lookup_mem : ∀ {fg : RawDict} {k : String} {v : Option SectionData},
    fg.lookup k = some v → (k, v) ∈ fg := by
  intro fg
  induction fg with
  | nil => intro k v h; simp at h
  | cons kv rest ih =>
    intro k v h
    cases kv with
    | mk k' v' =>
      rw [List.lookup_cons] at h
      cases hbe : (k == k') with
      | true =>
        rw [hbe] at h
        have hk : k = k' := by simpa using hbe
        cases h
        simp [hk]
      | false =>
        rw [hbe] at h
        exact List.mem_cons_of_mem _ (ih h)

theorem lookup_eq_some_of_mem_keys : ∀ {fg : RawDict} {k : String},
    k ∈ fg.map Prod.fst → ∃ v, fg.lookup k = some v := by
  intro fg
  induction fg with
  | nil => intro k h; simp at h
  | cons kv rest ih =>
    intro k h
    cases kv with
    | mk k' v' =>
      cases hbe : (k == k') with
      | true => exact ⟨v', by simp [List.lookup_cons, hbe]⟩
      | false =>
        have hne : k ≠ k' := by simpa using hbe
        have hmem : k ∈ rest.map Prod.fst := by
          simp only [List.map_cons, List.mem_cons] at h
          exact h.resolve_left hne
        obtain ⟨v, hv⟩ := ih hmem
        exact ⟨v, by simp [List.lookup_cons, hbe, hv]⟩

theorem lookup_of_nodup : ∀ {fg : RawDict}, (fg.map Prod.fst).Nodup →
    ∀ {k : String} {v : Option SectionData}, (k, v) ∈ fg → fg.lookup k = some v := by
  intro fg
  induction fg with
  | nil => intro _ k v h; simp at h
  | cons kv rest ih =>
    intro hnd k v h
    cases kv with
    | mk k' v' =>
      rcases List.mem_cons.mp h with heq | hmem
      · cases heq
        simp [List.lookup_cons]
      · have hknotin : k' ∉ rest.map Prod.fst := (List.nodup_cons.mp hnd).1
        have hne : (k == k') = false := by
          rw [beq_eq_false_iff_ne]
          intro hkk
          apply hknotin
          rw [← hkk]
          exact List.mem_map.mpr ⟨(k, v), hmem, rfl⟩
        rw [List.lookup_cons, hne]
        exact ih (List.Nodup.of_cons hnd) hmem

theorem loadGo_nil_iff (fg : RawDict) (onDisk : String → Bool)
    (hwf : ∀ kv ∈ fg, kv.2 ≠ none) :
    ∀ ks : List String, (∀ k ∈ ks, k ∈ fg.map Prod.fst) →
    (loadGo fg onDisk ks = [] ↔
      ∀ k ∈ ks, k = "default" ∧ (lookupFiles fg k).filter onDisk = []) := by
  intro ks
  induction ks with
  | nil => intro _; simp [loadGo]
  | cons k ks ih =>
    intro hks
    obtain ⟨v, hv⟩ := lookup_eq_some_of_mem_keys (hks k (by simp))
    have hvmem : (k, v) ∈ fg := lookup_mem hv
    cases v with
    | none => exact absurd rfl (hwf (k, none) hvmem)
    | some s =>
      simp only [loadGo, hv]
      rw [List.append_eq_nil, ih (fun k' hk' => hks k' (by simp [hk']))]
      have hsec : loadSection k s onDisk = [] ↔
          (k = "default" ∧ (lookupFiles fg k).filter onDisk = []) := by
        rw [lookupFiles, hv]
        by_cases hd : k = "default"
        · simp [loadSection, hd]
        · simp [loadSection, hd]
      rw [hsec]
      constructor
      · rintro ⟨h1, h2⟩ k' hk'
        rcases List.mem_cons.mp hk' with rfl | hk'
        · exact h1
        · exact h2 k' hk'
      · intro h
        exact ⟨h k (by simp), fun k' hk' => h k' (by simp [hk'])⟩

/-- C10 (corrected).  For a schema-valid sidecar with distinct keys, the
fallback-synthesis overwrite is triggered exactly when every section is
keyed "default" and none of its listed files exists on disk — i.e. when the
loaded item list (headers included) is empty.  A non-default section always
contributes a header item and therefore suppresses the fallback even if
every file list in the document is empty or stale. -/
theorem claim_fallback_trigger (fg : RawDict) (raw : List String)
    (hwf : ∀ kv ∈ fg, kv.2 ≠ none)
    (hkeys : (fg.map Prod.fst).Nodup) :
    (setFolderPath (some fg) raw).fallbackWrite = some (fallbackDoc (listFiles raw)) ↔
      ∀ kv ∈ fg, kv.1 = "default" ∧ ∀ f ∈ entryFiles kv, ¬ raw.contains f := by
  have hfb : (setFolderPath (some fg) raw).fallbackWrite =
      (if loadItems fg (fun f => raw.contains f) = []
        then some (fallbackDoc (listFiles raw)) else none) := rfl
  have hiff1 : ((if loadItems fg (fun f => raw.contains f) = []
      then some (fallbackDoc (listFiles raw)) else none) =
        some (fallbackDoc (listFiles raw))) ↔
      loadItems fg (fun f => raw.contains f) = [] := by
    by_cases hc : loadItems fg (fun f => raw.contains f) = [] <;> simp [hc]
  rw [hfb, hiff1, loadItems,
    loadGo_nil_iff fg _ hwf (sortedKeys fg)
      (fun k hk => by rwa [sortedKeys, List.mem_insertionSort] at hk)]
  constructor
  · intro h kv hkv
    obtain ⟨k, v⟩ := kv
    have hk := h k (by
      rw [sortedKeys, List.mem_insertionSort]
      exact List.mem_map.mpr ⟨(k, v), hkv, rfl⟩)
    cases v with
    | none => exact absurd rfl (hwf (k, none) hkv)
    | some s =>
      refine ⟨hk.1, ?_⟩
      intro f hf
      have hlk : lookupFiles fg k = s.files := by
        rw [lookupFiles, lookup_of_nodup hkeys hkv]
      rw [hlk] at hk
      have := List.filter_eq_nil_iff.mp hk.2 f hf
      simpa using this
  · intro h k hk
    rw [sortedKeys, List.mem_insertionSort] at hk
    obtain ⟨kv, hkv, rfl⟩ := List.mem_map.mp hk
    obtain ⟨k', v⟩ := kv
    cases v with
    | none => exact absurd rfl (hwf (k', none) hkv)
    | some s =>
      refine ⟨(h _ hkv).1, ?_⟩
      rw [lookupFiles, lookup_of_nodup hkeys hkv, List.filter_eq_nil_iff]
      intro f hf
      have := (h _ hkv).2 f hf
      simpa using this

/-- C10 counterexample: a sidecar that parses as valid schema, in which every
section's file list is empty (so there are zero loadable files), is NOT
discarded: its non-default header loads as an item, no synthesized document
is written, and the stale header "A" survives into the final list. -/
theorem claim_fallback_trigger_cex :
    (setFolderPath (some [("default", some ⟨"", []⟩), ("1", some ⟨"A", []⟩)])
        ["file_groups.yaml", "b"]).fallbackWrite = none ∧
    Item.header "A" ∈ (setFolderPath (some [("default", some ⟨"", []⟩),
        ("1", some ⟨"A", []⟩)]) ["file_groups.yaml", "b"]).items := by
  decide

theorem claim_fallback_trigger_witness :
    (setFolderPath (some [("default", some ⟨"", ["gone"]⟩)])
        ["file_groups.yaml", "b"]).fallbackWrite =
      some (fallbackDoc (listFiles ["file_groups.yaml", "b"])) := by
  apply (claim_fallback_trigger [("default", some ⟨"", ["gone"]⟩)]
    ["file_groups.yaml", "b"] (by decide) (by decide)).mpr
  decide

/-! ## Claim C1 -/

theorem buildDoc_eq_nil_iff (d : List String) (secs : List (String × List String)) :
    buildDoc d secs = [] ↔ d = [] ∧ secs = [] := by
  cases d with
  | nil =>
    cases secs with
    | nil => simp [buildDoc, secsItems]
    | cons s rest => cases s; simp [buildDoc, secsItems]
  | cons f d2 => simp [buildDoc]

/-- C1 (corrected, amended).  Round-trip holds for documents whose
non-default sections are all nonempty and number at most nine, loaded
against a folder whose file set (sidecar aside) equals the document's files:
saving and re-loading reproduces the section order, headers and file order
exactly (the default section's key is already normalized). -/
theorem claim_roundtrip (d : List String) (secs : List (String × List String))
    (raw : List String)
    (hne : ∀ s ∈ secs, s.2 ≠ [])
    (hlen : secs.length ≤ 9)
    (hdisk : ∀ f, f ∈ listFiles raw ↔ f ∈ docFiles d secs) :
    (setFolderPath (some (asRaw (save_yaml (buildDoc d secs)))) raw).items =
      buildDoc d secs := by
  have hsave := save_yaml_buildDoc d secs hne
  have hall : ∀ f ∈ docFiles d secs, raw.contains f = true := by
    intro f hf
    apply contains_true_iff.mpr
    exact List.mem_of_mem_filter ((hdisk f).mpr hf)
  have hload : loadItems (asRaw (save_yaml (buildDoc d secs))) (fun f => raw.contains f) =
      buildDoc d secs := by
    rw [hsave, loadItems_saved d secs _ hlen]
    have hdf : d.filter (fun f => raw.contains f) = d :=
      List.filter_eq_self.mpr fun f hf => hall f (by simp [docFiles, hf])
    have hsf : secs.map (fun s => (s.1, s.2.filter (fun f => raw.contains f))) = secs := by
      have hpt : ∀ s ∈ secs, (s.1, s.2.filter (fun f => raw.contains f)) = id s := by
        intro s hs
        have hfe : s.2.filter (fun f => raw.contains f) = s.2 :=
          List.filter_eq_self.mpr fun f hf => hall f (by
            simp only [docFiles, List.mem_append]
            right
            exact List.mem_flatMap.mpr ⟨s, hs, hf⟩)
        rw [hfe, id_eq]
      rw [List.map_congr_left hpt, List.map_id]
    rw [hdf, hsf]
  have hout : (setFolderPath (some (asRaw (save_yaml (buildDoc d secs)))) raw).items =
      handle_folder_change (if buildDoc d secs = [] then (listFiles raw).map Item.file
        else buildDoc d secs) raw := by
    simp only [setFolderPath, hload]
  rw [hout]
  by_cases hbd : buildDoc d secs = []
  · rw [if_pos hbd]
    obtain ⟨hd0, hs0⟩ := (buildDoc_eq_nil_iff d secs).mp hbd
    subst hd0
    subst hs0
    have hnil : listFiles raw = [] := by
      apply List.eq_nil_iff_forall_not_mem.mpr
      intro f hf
      have h2 := (hdisk f).mp hf
      simp [docFiles] at h2
    rw [handle_folder_change_noop]
    · rw [hnil]
      rfl
    · intro f hf
      rwa [widgetFiles_mapFile] at hf
    · intro f hf
      rwa [widgetFiles_mapFile]
  · rw [if_neg hbd]
    apply handle_folder_change_noop
    · intro f hf
      rw [widgetFiles_buildDoc] at hf
      exact (hdisk f).mpr hf
    · intro f hf
      rw [widgetFiles_buildDoc]
      exact (hdisk f).mp hf

/-- C1 counterexample: the document `[default:[f1], A:[]]` (a legal
GroupingDocument whose files all exist on disk) does not survive a
save/load round trip — the empty section A is dropped by save, so the
reloaded document has lost the header "A".  A second failure mode: with ten
nonempty sections (all files on disk), the reloaded document comes back with
section "A10" right after "A1", because load sorts the saved keys
"1", …, "10" as strings. -/
theorem claim_roundtrip_cex :
    ((setFolderPath (some (asRaw (save_yaml [Item.file "f1", Item.header "A"])))
        ["file_groups.yaml", "f1"]).items = [Item.file "f1"] ∧
    (setFolderPath (some (asRaw (save_yaml [Item.file "f1", Item.header "A"])))
        ["file_groups.yaml", "f1"]).items ≠ [Item.file "f1", Item.header "A"]) ∧
    (setFolderPath (some (asRaw (save_yaml (buildDoc []
        [("A1", ["a1"]), ("A2", ["a2"]), ("A3", ["a3"]), ("A4", ["a4"]), ("A5", ["a5"]),
         ("A6", ["a6"]), ("A7", ["a7"]), ("A8", ["a8"]), ("A9", ["a9"]),
         ("A10", ["a10"])]))))
        ["file_groups.yaml", "a1", "a2", "a3", "a4", "a5", "a6", "a7", "a8", "a9", "a10"]).items ≠
      buildDoc []
        [("A1", ["a1"]), ("A2", ["a2"]), ("A3", ["a3"]), ("A4", ["a4"]), ("A5", ["a5"]),
         ("A6", ["a6"]), ("A7", ["a7"]), ("A8", ["a8"]), ("A9", ["a9"]),
         ("A10", ["a10"])] := by
  decide

theorem claim_roundtrip_witness :
    (setFolderPath (some (asRaw (save_yaml (buildDoc ["f1"] [("A", ["f2"])]))))
        ["file_groups.yaml", "f1", "f2"]).items = buildDoc ["f1"] [("A", ["f2"])] := by
  have hd : ∀ f, f ∈ listFiles ["file_groups.yaml", "f1", "f2"] ↔
      f ∈ docFiles ["f1"] [("A", ["f2"])] := by
    intro f
    rw [show listFiles ["file_groups.yaml", "f1", "f2"] = ["f1", "f2"] from by decide,
      show docFiles ["f1"] [("A", ["f2"])] = ["f1", "f2"] from by decide]
  exact claim_roundtrip ["f1"] [("A", ["f2"])] ["file_groups.yaml", "f1", "f2"]
    (by decide) (by decide) hd

end FileExplorer
